import Mathlib

/-!
# Verification of `scripts/analyze_field_presence.py`

A shallow embedding of the field-presence analysis script.  Strings are
modelled as `List Char`; the Python regex searches are modelled by
executable scanners with the same matching semantics (leftmost,
non-overlapping, greedy `\s+`/`\w+`, lazy `[^>]*?`); Python `float`
percentages are modelled over `ℚ` (the divisions involved are exact in the
claims considered); Python `dict`s are modelled as insertion-ordered
association lists with last-write-wins values.
-/

namespace FieldPresence

/-- The ASCII whitespace characters matched by Python's `\s`. -/
def isWS (c : Char) : Bool :=
  c = ' ' || c = '\t' || c = '\n' || c = '\r' || c = '\x0b' || c = '\x0c'

/-- The ASCII word characters matched by Python's `\w`. -/
def isWord (c : Char) : Bool :=
  ('a'.toNat ≤ c.toNat && c.toNat ≤ 'z'.toNat) ||
  ('A'.toNat ≤ c.toNat && c.toNat ≤ 'Z'.toNat) ||
  ('0'.toNat ≤ c.toNat && c.toNat ≤ '9'.toNat) || c = '_'

/-- Drop the maximal run of leading whitespace (the behaviour of a greedy `\s*`). -/
def dropWS : List Char → List Char
  | [] => []
  | c :: cs => if isWS c then dropWS cs else c :: cs

theorem dropWS_length_le (l : List Char) : (dropWS l).length ≤ l.length := by
  induction l with
  | nil => simp [dropWS]
  | cons c cs ih =>
    simp only [dropWS]
    split
    · exact Nat.le_succ_of_le ih
    · simp

/-- Match `\s*/>` at the head of `l`: skip whitespace, then require the literal
`/>`; returns the rest of the input after the `>`.  (Because `/` and `>` are not
whitespace, the greedy `\s*` with backtracking matches exactly the maximal
whitespace run.) -/
def tailMatch (l : List Char) : Option (List Char) :=
  match dropWS l with
  | c1 :: c2 :: rest => if c1 = '/' ∧ c2 = '>' then some rest else none
  | _ => none

theorem tailMatch_length_lt {l rest : List Char} (h : tailMatch l = some rest) :
    rest.length < l.length := by
  have hle := dropWS_length_le l
  unfold tailMatch at h
  split at h
  · rename_i x c1 c2 r heq
    split at h
    · cases h
      rw [heq] at hle
      simp only [List.length_cons] at hle
      omega
    · cases h
  · cases h

/-- The lazy capture `([^>]*?)\s*/>`: the shortest run of non-`>` characters such
that `\s*/>` matches right after it.  Returns the captured run and the rest of
the input after the closing `>`. -/
def lazyCapture : List Char → Option (List Char × List Char)
  | [] => none
  | c :: cs =>
    match tailMatch (c :: cs) with
    | some rest => some ([], rest)
    | none =>
      if c = '>' then none
      else (lazyCapture cs).map (fun p => (c :: p.1, p.2))

theorem lazyCapture_length_lt :
    ∀ {l : List Char} {cap rest : List Char},
      lazyCapture l = some (cap, rest) → rest.length < l.length := by
  intro l
  induction l with
  | nil => intro cap rest h; simp [lazyCapture] at h
  | cons c cs ih =>
    intro cap rest h
    unfold lazyCapture at h
    split at h
    · rename_i r htm
      cases h
      exact tailMatch_length_lt htm
    · split at h
      · cases h
      · cases hrec : lazyCapture cs with
        | none => rw [hrec] at h; cases h
        | some p =>
          rw [hrec] at h
          simp only [Option.map, Option.some.injEq, Prod.mk.injEq] at h
          have h2 : p.2 = rest := h.2
          have := ih (show lazyCapture cs = some (p.1, p.2) from by rw [hrec])
          rw [h2] at this
          exact Nat.lt_succ_of_lt this

/-- Match a literal character list at the head of the input. -/
def dropLit : List Char → List Char → Option (List Char)
  | [], l => some l
  | _ :: _, [] => none
  | t :: ts, c :: cs => if c = t then dropLit ts cs else none

theorem dropLit_length_le :
    ∀ {ts l rest : List Char}, dropLit ts l = some rest → rest.length ≤ l.length := by
  intro ts
  induction ts with
  | nil =>
    intro l rest h
    unfold dropLit at h
    cases h
    exact Nat.le_refl _
  | cons t ts ih =>
    intro l rest h
    cases l with
    | nil => cases h
    | cons c cs =>
      unfold dropLit at h
      split at h
      · exact Nat.le_succ_of_le (ih h)
      · cases h

theorem dropLit_eq_append :
    ∀ {ts l rest : List Char}, dropLit ts l = some rest → l = ts ++ rest := by
  intro ts
  induction ts with
  | nil =>
    intro l rest h
    unfold dropLit at h
    cases h
    simp
  | cons t ts ih =>
    intro l rest h
    cases l with
    | nil => cases h
    | cons c cs =>
      unfold dropLit at h
      split at h
      · rename_i hc
        subst hc
        simpa using ih h
      · cases h

/-- Attempt to match the pattern `<tag\s+([^>]*?)\s*/>` at the head of `l`
(Python semantics: the greedy `\s+` takes the maximal whitespace run, then the
lazy capture takes the shortest run of non-`>` characters before `\s*/>`).
Returns the captured attribute text and the rest of the input after `/>`. -/
def matchOpen (tag : List Char) (l : List Char) : Option (List Char × List Char) :=
  match l with
  | [] => none
  | c0 :: rest =>
    if c0 = '<' then
      match dropLit tag rest with
      | some (c :: rest2) => if isWS c then lazyCapture (dropWS rest2) else none
      | _ => none
    else none

theorem matchOpen_length_lt {tag l cap rest : List Char}
    (h : matchOpen tag l = some (cap, rest)) : rest.length < l.length := by
  unfold matchOpen at h
  split at h
  · cases h
  · rename_i c0 cs0
    split at h
    · split at h
      · rename_i c rest2 hdl
        split at h
        · have h1 := dropLit_length_le hdl
          have h2 := lazyCapture_length_lt h
          have h3 := dropWS_length_le rest2
          simp only [List.length_cons] at h1 ⊢
          omega
        · cases h
      · cases h
    · cases h

/-- Fuel-indexed scanner for `re.findall`; the fuel only serves to make the
recursion structural, and `l.length` fuel always suffices. -/
def findAllF (tag : List Char) : Nat → List Char → List (List Char)
  | 0, _ => []
  | _ + 1, [] => []
  | fuel + 1, c :: cs =>
    match matchOpen tag (c :: cs) with
    | some (cap, rest) => cap :: findAllF tag fuel rest
    | none => findAllF tag fuel cs

theorem findAllF_congr (tag : List Char) :
    ∀ (f : Nat) (g : Nat) (l : List Char), l.length ≤ f → l.length ≤ g →
      findAllF tag f l = findAllF tag g l := by
  intro f
  induction f with
  | zero =>
    intro g l hf _
    have : l = [] := List.length_eq_zero.mp (Nat.le_zero.mp hf)
    subst this
    cases g <;> rfl
  | succ f ih =>
    intro g l hf hg
    cases l with
    | nil => cases g <;> rfl
    | cons c cs =>
      cases g with
      | zero => simp at hg
      | succ g =>
        simp only [findAllF]
        simp only [List.length_cons, Nat.succ_le_succ_iff] at hf hg
        cases hm : matchOpen tag (c :: cs) with
        | some p =>
          obtain ⟨cap, rest⟩ := p
          have hlt := matchOpen_length_lt (show matchOpen tag (c :: cs) = some (cap, rest) from by rw [hm])
          simp only [List.length_cons] at hlt
          show cap :: findAllF tag f rest = cap :: findAllF tag g rest
          rw [ih g rest (by omega) (by omega)]
        | none =>
          show findAllF tag f cs = findAllF tag g cs
          rw [ih g cs hf hg]

/-- `re.findall(rf'<{tag}\s+([^>]*?)\s*/>', l)`: scan left to right, at each
position attempt `matchOpen`; on success record the capture and continue after
the match (non-overlapping), otherwise advance one character. -/
def findAll (tag : List Char) (l : List Char) : List (List Char) :=
  findAllF tag l.length l

theorem findAll_nil (tag : List Char) : findAll tag [] = [] := rfl

theorem findAll_cons (tag : List Char) (c : Char) (cs : List Char) :
    findAll tag (c :: cs) =
      match matchOpen tag (c :: cs) with
      | some (cap, rest) => cap :: findAll tag rest
      | none => findAll tag cs := by
  unfold findAll
  simp only [List.length_cons, findAllF]
  cases hm : matchOpen tag (c :: cs) with
  | some p =>
    obtain ⟨cap, rest⟩ := p
    have hlt := matchOpen_length_lt (show matchOpen tag (c :: cs) = some (cap, rest) from by rw [hm])
    simp only [List.length_cons] at hlt
    show cap :: findAllF tag cs.length rest = cap :: findAllF tag rest.length rest
    rw [findAllF_congr tag cs.length rest.length rest (by omega) (by omega)]
  | none => rfl

/-- Split off the maximal run of leading word characters (greedy `\w+`). -/
def takeWord : List Char → List Char × List Char
  | [] => ([], [])
  | c :: cs =>
    if isWord c then
      let p := takeWord cs
      (c :: p.1, p.2)
    else ([], c :: cs)

theorem takeWord_append (l : List Char) : (takeWord l).1 ++ (takeWord l).2 = l := by
  induction l with
  | nil => simp [takeWord]
  | cons c cs ih =>
    simp only [takeWord]
    split
    · simpa using ih
    · simp

theorem takeWord_snd_length_le (l : List Char) : (takeWord l).2.length ≤ l.length := by
  induction l with
  | nil => simp [takeWord]
  | cons c cs ih =>
    simp only [takeWord]
    split
    · exact Nat.le_succ_of_le ih
    · simp

/-- The quoted-value match `[^"]*"`: the greedy run of non-quote characters up to
the next double quote.  Returns the value and the rest after the closing quote. -/
def splitQuote : List Char → Option (List Char × List Char)
  | [] => none
  | c :: cs =>
    if c = '"' then some ([], cs)
    else (splitQuote cs).map (fun p => (c :: p.1, p.2))

theorem splitQuote_length_lt :
    ∀ {l v rest : List Char}, splitQuote l = some (v, rest) → rest.length < l.length := by
  intro l
  induction l with
  | nil => intro v rest h; cases h
  | cons c cs ih =>
    intro v rest h
    unfold splitQuote at h
    split at h
    · cases h
      simp
    · cases hrec : splitQuote cs with
      | none => rw [hrec] at h; cases h
      | some p =>
        rw [hrec] at h
        simp only [Option.map, Option.some.injEq, Prod.mk.injEq] at h
        have h2 : p.2 = rest := h.2
        have := ih (show splitQuote cs = some (p.1, p.2) from by rw [hrec])
        rw [h2] at this
        exact Nat.lt_succ_of_lt this

/-- One attempt of the pattern `(\w+)="([^"]*)"` at the head of the input:
a maximal nonempty word run, then `="`, then the quoted value.  Returns the
(name, value) pair and the rest after the closing quote. -/
def scanStep (l : List Char) : Option ((List Char × List Char) × List Char) :=
  match l with
  | [] => none
  | c :: cs =>
    if isWord c then
      match (takeWord (c :: cs)).2 with
      | c1 :: c2 :: rest2 =>
        if c1 = '=' ∧ c2 = '"' then
          match splitQuote rest2 with
          | some (v, rest3) => some (((takeWord (c :: cs)).1, v), rest3)
          | none => none
        else none
      | _ => none
    else none

theorem scanStep_length_lt {l : List Char} {pair : List Char × List Char}
    {rest : List Char} (h : scanStep l = some (pair, rest)) : rest.length < l.length := by
  unfold scanStep at h
  split at h
  · cases h
  · rename_i c cs
    split at h
    · split at h
      · rename_i c1 c2 rest2 hw
        split at h
        · split at h
          · rename_i v rest3 hsq
            cases h
            have h1 := splitQuote_length_lt hsq
            have h2 : (takeWord (c :: cs)).2.length ≤ (c :: cs).length :=
              takeWord_snd_length_le (c :: cs)
            rw [hw] at h2
            simp only [List.length_cons] at h2 ⊢
            omega
          · cases h
        · cases h
      · cases h
    · cases h

/-- Fuel-indexed scanner for the attribute `finditer`; `l.length` fuel always
suffices. -/
def scanAttrsF : Nat → List Char → List (List Char × List Char)
  | 0, _ => []
  | _ + 1, [] => []
  | fuel + 1, c :: cs =>
    match scanStep (c :: cs) with
    | some (pair, rest) => pair :: scanAttrsF fuel rest
    | none => scanAttrsF fuel cs

theorem scanAttrsF_congr :
    ∀ (f : Nat) (g : Nat) (l : List Char), l.length ≤ f → l.length ≤ g →
      scanAttrsF f l = scanAttrsF g l := by
  intro f
  induction f with
  | zero =>
    intro g l hf _
    have : l = [] := List.length_eq_zero.mp (Nat.le_zero.mp hf)
    subst this
    cases g <;> rfl
  | succ f ih =>
    intro g l hf hg
    cases l with
    | nil => cases g <;> rfl
    | cons c cs =>
      cases g with
      | zero => simp at hg
      | succ g =>
        simp only [scanAttrsF]
        simp only [List.length_cons, Nat.succ_le_succ_iff] at hf hg
        cases hm : scanStep (c :: cs) with
        | some p =>
          obtain ⟨pair, rest⟩ := p
          have hlt := scanStep_length_lt (show scanStep (c :: cs) = some (pair, rest) from by rw [hm])
          simp only [List.length_cons] at hlt
          show pair :: scanAttrsF f rest = pair :: scanAttrsF g rest
          rw [ih g rest (by omega) (by omega)]
        | none =>
          show scanAttrsF f cs = scanAttrsF g cs
          rw [ih g cs hf hg]

/-- `re.finditer(r'(\w+)="([^"]*)"', l)`: scan left to right; on a match record
the captured (name, value) pair and continue after the match, otherwise advance
one character. -/
def scanAttrs (l : List Char) : List (List Char × List Char) :=
  scanAttrsF l.length l

theorem scanAttrs_cons (c : Char) (cs : List Char) :
    scanAttrs (c :: cs) =
      match scanStep (c :: cs) with
      | some (pair, rest) => pair :: scanAttrs rest
      | none => scanAttrs cs := by
  unfold scanAttrs
  simp only [List.length_cons, scanAttrsF]
  cases hm : scanStep (c :: cs) with
  | some p =>
    obtain ⟨pair, rest⟩ := p
    have hlt := scanStep_length_lt (show scanStep (c :: cs) = some (pair, rest) from by rw [hm])
    simp only [List.length_cons] at hlt
    show pair :: scanAttrsF cs.length rest = pair :: scanAttrsF rest.length rest
    rw [scanAttrsF_congr cs.length rest.length rest (by omega) (by omega)]
  | none => rfl

/-- Python `dict` assignment `d[k] = v` on an insertion-ordered association
list: overwrite in place if the key exists, otherwise append at the end. -/
def dictInsert (k v : List Char) : List (List Char × List Char) → List (List Char × List Char)
  | [] => [(k, v)]
  | p :: rest => if p.1 = k then (k, v) :: rest else p :: dictInsert k v rest

/-- Build a Python `dict` from a sequence of assignments (last write wins,
first-insertion key order). -/
def pyDict (pairs : List (List Char × List Char)) : List (List Char × List Char) :=
  pairs.foldl (fun d p => dictInsert p.1 p.2 d) []

/-- `extract_elements(xml_content, element_name)`: all self-closing occurrences
of the element, each as its attribute dictionary. -/
def extract_elements (xml_content : List Char) (element_name : List Char) :
    List (List (List Char × List Char)) :=
  (findAll element_name xml_content).map (fun cap => pyDict (scanAttrs cap))

/-- Python `str.strip()`: remove leading and trailing whitespace. -/
def pyStrip (s : List Char) : List Char :=
  (dropWS (dropWS s).reverse).reverse

/-- The running tally for one attribute name (`field_stats` entry).  Python
keeps `sample_values` in an unordered `set`; its *contents* are exactly the
first 5 distinct truncated values added, which we model as a deduplicated list
in insertion order (the set's iteration order itself is not modelled). -/
structure RawStat where
  present : Nat
  non_empty : Nat
  sample_values : List (List Char)
deriving DecidableEq

def defaultStat : RawStat := ⟨0, 0, []⟩

/-- The body of the inner loop of `analyze_fields` for one (field, value) pair:
bump `present`; if the value is truthy and strips to non-empty, bump
`non_empty` and, while fewer than 5 samples are held, add the value truncated
to 50 characters to the sample set. -/
def updStat (value : List Char) (s : RawStat) : RawStat :=
  let s1 : RawStat := { s with present := s.present + 1 }
  if value ≠ [] ∧ pyStrip value ≠ [] then
    let s2 : RawStat := { s1 with non_empty := s1.non_empty + 1 }
    if s2.sample_values.length < 5 then
      if value.take 50 ∈ s2.sample_values then s2
      else { s2 with sample_values := s2.sample_values ++ [value.take 50] }
    else s2
  else s1

/-- `field_stats[field]` update with `defaultdict` semantics: a missing key is
created (at the end, in insertion order) from the default before updating. -/
def bumpField (field value : List Char) :
    List (List Char × RawStat) → List (List Char × RawStat)
  | [] => [(field, updStat value defaultStat)]
  | p :: rest =>
    if p.1 = field then (p.1, updStat value p.2) :: rest
    else p :: bumpField field value rest

/-- The inner loop of `analyze_fields`: process one element occurrence
(`for field, value in elem.items()`). -/
def stepElem (st : List (List Char × RawStat)) (elem : List (List Char × List Char)) :
    List (List Char × RawStat) :=
  elem.foldl (fun st2 p => bumpField p.1 p.2 st2) st

/-- The two nested loops of `analyze_fields` building `field_stats`. -/
def fieldStats (elements : List (List (List Char × List Char))) :
    List (List Char × RawStat) :=
  elements.foldl stepElem []

/-- One entry of the `results` dict of `analyze_fields`. -/
structure FieldResult where
  present : Nat
  present_pct : ℚ
  non_empty : Nat
  non_empty_pct : ℚ
  samples : List (List Char)
deriving DecidableEq

/-- The percentage-finalisation step of `analyze_fields` for one field. -/
def finalize (total : Nat) (s : RawStat) : FieldResult :=
  { present := s.present
    present_pct := (s.present : ℚ) / (total : ℚ) * 100
    non_empty := s.non_empty
    non_empty_pct := if s.present > 0 then (s.non_empty : ℚ) / (total : ℚ) * 100 else 0
    samples := s.sample_values.take 3 }

/-- `analyze_fields(elements)`: the per-field presence statistics, as an
insertion-ordered association list (Python dict iteration order). -/
def analyze_fields (elements : List (List (List Char × List Char))) :
    List (List Char × FieldResult) :=
  if elements.length = 0 then []
  else (fieldStats elements).map (fun p => (p.1, finalize elements.length p.2))

/-- Lexicographic `≤` on strings by character code (Python string comparison). -/
def strLe : List Char → List Char → Bool
  | [], _ => true
  | _ :: _, [] => false
  | a :: as, b :: bs =>
    if a.toNat < b.toNat then true
    else if b.toNat < a.toNat then false
    else strLe as bs

theorem strLe_total (a : List Char) : ∀ b : List Char, strLe a b = true ∨ strLe b a = true := by
  induction a with
  | nil => intro b; left; rfl
  | cons x xs ih =>
    intro b
    cases b with
    | nil => right; rfl
    | cons y ys =>
      simp only [strLe]
      rcases Nat.lt_trichotomy x.toNat y.toNat with h | h | h
      · left; simp [h]
      · have h1 : ¬ x.toNat < y.toNat := by omega
        have h2 : ¬ y.toNat < x.toNat := by omega
        rcases ih ys with hh | hh
        · left; simp [h1, h2, hh]
        · right; simp [h1, h2, hh]
      · right; simp [h]

theorem strLe_trans (a : List Char) :
    ∀ b c : List Char, strLe a b = true → strLe b c = true → strLe a c = true := by
  induction a with
  | nil => intro b c _ _; rfl
  | cons x xs ih =>
    intro b c hab hbc
    cases b with
    | nil => simp [strLe] at hab
    | cons y ys =>
      cases c with
      | nil => simp [strLe] at hbc
      | cons z zs =>
        simp only [strLe] at hab hbc ⊢
        rcases Nat.lt_trichotomy x.toNat y.toNat with h1 | h1 | h1 <;>
          rcases Nat.lt_trichotomy y.toNat z.toNat with h2 | h2 | h2
        · simp [show x.toNat < z.toNat by omega]
        · simp [show x.toNat < z.toNat by omega]
        · rw [if_neg (by omega), if_pos h2] at hbc
          cases hbc
        · simp [show x.toNat < z.toNat by omega]
        · rw [if_neg (by omega), if_neg (by omega)] at hab hbc ⊢
          exact ih ys zs hab hbc
        · rw [if_neg (by omega), if_pos h2] at hbc
          cases hbc
        · rw [if_neg (by omega), if_pos h1] at hab
          cases hab
        · rw [if_neg (by omega), if_pos (by omega)] at hab
          cases hab
        · rw [if_neg (by omega), if_pos (by omega)] at hab
          cases hab

/-- The sort key of `sorted(results.items())`: comparison of the field names
(keys are distinct, so tuple comparison reduces to the first component). -/
def keyLe (p q : List Char × FieldResult) : Prop := strLe p.1 q.1 = true

instance keyLeDec : DecidableRel keyLe := fun p q =>
  if h : strLe p.1 q.1 = true then .isTrue h else .isFalse h

instance keyLeTotal : IsTotal (List Char × FieldResult) keyLe :=
  ⟨fun p q => strLe_total p.1 q.1⟩

instance keyLeTrans : IsTrans (List Char × FieldResult) keyLe :=
  ⟨fun p q r hpq hqr => strLe_trans p.1 q.1 r.1 hpq hqr⟩

/-- The loop body of `categorize_fields` over the sorted items: append each
item to the `always`, `sometimes` or `rarely` bucket by its `non_empty_pct`
(thresholds 99.9 and 50). -/
def categoGo (l : List (List Char × FieldResult)) :
    List (List Char × FieldResult) × List (List Char × FieldResult) ×
      List (List Char × FieldResult) :=
  match l with
  | [] => ([], [], [])
  | p :: rest =>
    let r := categoGo rest
    if p.2.non_empty_pct ≥ (999 : ℚ) / 10 then (p :: r.1, r.2.1, r.2.2)
    else if p.2.non_empty_pct ≥ (50 : ℚ) then (r.1, p :: r.2.1, r.2.2)
    else (r.1, r.2.1, p :: r.2.2)

/-- `categorize_fields(results, total)`: iterate over `sorted(results.items())`
and distribute into the three buckets.  (`total` is unused in the source.) -/
def categorize_fields (results : List (List Char × FieldResult)) (total : Nat) :
    List (List Char × FieldResult) × List (List Char × FieldResult) ×
      List (List Char × FieldResult) :=
  categoGo (List.insertionSort keyLe results)

/-- An abstract line of the printed report (the text formatting itself is out
of scope; each constructor records the data printed on that line group). -/
inductive ReportLine
  | header (elemType : List Char)
  | found (n : Nat) (elemType : List Char)
  | banner (categoryName : List Char) (numFields : Nat)
  | fieldLine (field : List Char) (pct : ℚ) (non_empty total : Nat)
      (samples : List (List Char))
deriving DecidableEq

/-- `print_category(name, fields, total)`: the banner followed by one line per
field (name, non-empty percentage, non_empty/total, up to two samples). -/
def print_category (name : List Char) (fields : List (List Char × FieldResult))
    (total : Nat) : List ReportLine :=
  ReportLine.banner name fields.length ::
    fields.map (fun p =>
      ReportLine.fieldLine p.1 p.2.non_empty_pct p.2.non_empty total (p.2.samples.take 2))

def alwaysLabel : List Char :=
  "ALWAYS PRESENT (>=99.9% non-empty) - Can be non-optional".toList

def sometimesLabel : List Char :=
  "SOMETIMES PRESENT (50-99%) - Conditional or truly optional".toList

def rarelyLabel : List Char :=
  "RARELY PRESENT (<50%) - Truly optional".toList

/-- The body of the per-element-type loop of `main`: header, the
"Found N elements" line, and - unless N = 0, in which case the loop
`continue`s - the three category sections. -/
def reportForType (xml_content : List Char) (elemType : List Char) : List ReportLine :=
  let elements := extract_elements xml_content elemType
  let total := elements.length
  ReportLine.header elemType :: ReportLine.found total elemType ::
    (if total = 0 then []
     else
       let results := analyze_fields elements
       let c := categorize_fields results total
       print_category alwaysLabel c.1 total ++
         print_category sometimesLabel c.2.1 total ++
         print_category rarelyLabel c.2.2 total)

/-- Association-list lookup on the results dict (Python `results[field]`). -/
def lookupField (k : List Char) : List (List Char × FieldResult) → Option FieldResult
  | [] => none
  | p :: rest => if p.1 = k then some p.2 else lookupField k rest

/-! ### Per-field projection of the tally (for the Aggregator claims) -/

/-- Association-list lookup on an attribute dictionary (`elem[k]`). -/
def lookupAttr (k : List Char) : List (List Char × List Char) → Option (List Char)
  | [] => none
  | p :: rest => if p.1 = k then some p.2 else lookupAttr k rest

/-- Association-list lookup on the running tally (`field_stats[k]` read-only). -/
def lookupStat (k : List Char) : List (List Char × RawStat) → Option RawStat
  | [] => none
  | p :: rest => if p.1 = k then some p.2 else lookupStat k rest

/-- Number of occurrences that carry attribute `f` (the spec's `N`). -/
def presentCount (f : List Char) (elements : List (List (List Char × List Char))) : Nat :=
  elements.countP (fun e => (lookupAttr f e).isSome)

/-- Whether occurrence `e` carries `f` with a value that strips to non-empty. -/
def occNonEmpty (f : List Char) (e : List (List Char × List Char)) : Bool :=
  match lookupAttr f e with
  | some v => pyStrip v ≠ []
  | none => false

/-- Number of occurrences whose `f` value strips to non-empty (the spec's `K`). -/
def nonEmptyCount (f : List Char) (elements : List (List (List Char × List Char))) : Nat :=
  elements.countP (occNonEmpty f)

theorem updStat_present (v : List Char) (s : RawStat) :
    (updStat v s).present = s.present + 1 := by
  simp only [updStat]
  split
  · split
    · split <;> rfl
    · rfl
  · rfl

theorem pyStrip_nil : pyStrip [] = [] := rfl

theorem updStat_non_empty (v : List Char) (s : RawStat) :
    (updStat v s).non_empty = s.non_empty + (if pyStrip v = [] then 0 else 1) := by
  simp only [updStat]
  by_cases hv : v = []
  · subst hv
    simp [pyStrip_nil]
  · by_cases hs : pyStrip v = []
    · simp [hv, hs]
    · rw [if_pos ⟨hv, hs⟩, if_neg hs]
      split
      · split <;> rfl
      · rfl

theorem lookupStat_bumpField_self (f v : List Char) (st : List (List Char × RawStat)) :
    lookupStat f (bumpField f v st) =
      some (updStat v ((lookupStat f st).getD defaultStat)) := by
  induction st with
  | nil => simp [bumpField, lookupStat]
  | cons p rest ih =>
    simp only [bumpField]
    by_cases h : p.1 = f
    · rw [if_pos h]
      simp [lookupStat, h]
    · rw [if_neg h]
      simp [lookupStat, h, ih]

theorem lookupStat_bumpField_other (f k v : List Char) (st : List (List Char × RawStat))
    (h : k ≠ f) : lookupStat f (bumpField k v st) = lookupStat f st := by
  induction st with
  | nil => simp [bumpField, lookupStat, h]
  | cons p rest ih =>
    simp only [bumpField]
    by_cases hp : p.1 = k
    · rw [if_pos hp]
      simp only [lookupStat]
      rw [if_neg (by rw [hp] at *; exact h), if_neg (by rw [hp]; exact h)]
    · rw [if_neg hp]
      simp only [lookupStat]
      split
      · rfl
      · exact ih

theorem lookupAttr_eq_none {k : List Char} {e : List (List Char × List Char)}
    (h : k ∉ e.map Prod.fst) : lookupAttr k e = none := by
  induction e with
  | nil => rfl
  | cons q rest ih =>
    simp only [List.map_cons, List.mem_cons, not_or] at h
    simp only [lookupAttr]
    rw [if_neg (fun hq => h.1 hq.symm)]
    exact ih h.2

/-- The per-field view of processing a single occurrence: with distinct
attribute names in the occurrence, field `f`'s tally entry is updated once if
`f` is present (created from the default if needed) and untouched otherwise. -/
theorem lookupStat_stepElem (f : List Char) :
    ∀ (elem : List (List Char × List Char)), (elem.map Prod.fst).Nodup →
      ∀ st, lookupStat f (stepElem st elem) =
        match lookupAttr f elem with
        | none => lookupStat f st
        | some v => some (updStat v ((lookupStat f st).getD defaultStat)) := by
  intro elem
  induction elem with
  | nil => intro _ st; rfl
  | cons p rest ih =>
    intro hnd st
    simp only [List.map_cons, List.nodup_cons] at hnd
    have hstep : stepElem st (p :: rest) = stepElem (bumpField p.1 p.2 st) rest := rfl
    rw [hstep, ih hnd.2]
    by_cases hp : p.1 = f
    · have hrestf : lookupAttr f rest = none := lookupAttr_eq_none (hp ▸ hnd.1)
      rw [hrestf]
      simp only [lookupAttr, if_pos hp]
      rw [hp, lookupStat_bumpField_self]
    · simp only [lookupAttr, if_neg hp]
      rw [lookupStat_bumpField_other f p.1 p.2 st hp]

/-- The per-field projection of one step of the outer loop. -/
def projStep (f : List Char) (os : Option RawStat) (e : List (List Char × List Char)) :
    Option RawStat :=
  match lookupAttr f e with
  | none => os
  | some v => some (updStat v (os.getD defaultStat))

theorem lookupStat_foldl (f : List Char) :
    ∀ (elements : List (List (List Char × List Char))),
      (∀ e ∈ elements, (e.map Prod.fst).Nodup) →
      ∀ st, lookupStat f (elements.foldl stepElem st) =
        elements.foldl (projStep f) (lookupStat f st) := by
  intro elements
  induction elements with
  | nil => intro _ st; rfl
  | cons e rest ih =>
    intro hnd st
    have h1 : (e :: rest).foldl stepElem st = rest.foldl stepElem (stepElem st e) := rfl
    rw [h1, ih (fun x hx => hnd x (List.mem_cons_of_mem _ hx)) (stepElem st e)]
    have h2 := lookupStat_stepElem f e (hnd e (List.mem_cons_self _ _)) st
    have h3 : lookupStat f (stepElem st e) = projStep f (lookupStat f st) e := by
      rw [h2]; rfl
    rw [h3]
    rfl

/-- The per-field projection of the whole tally. -/
theorem lookupStat_fieldStats (f : List Char)
    (elements : List (List (List Char × List Char)))
    (hnd : ∀ e ∈ elements, (e.map Prod.fst).Nodup) :
    lookupStat f (fieldStats elements) = elements.foldl (projStep f) none := by
  unfold fieldStats
  exact lookupStat_foldl f elements hnd []

theorem projFold_present (f : List Char) :
    ∀ (elements : List (List (List Char × List Char))) (os : Option RawStat),
      ((elements.foldl (projStep f) os).map RawStat.present).getD 0 =
        (os.map RawStat.present).getD 0 + presentCount f elements := by
  intro elements
  induction elements with
  | nil => intro os; simp [presentCount]
  | cons e rest ih =>
    intro os
    have h1 : (e :: rest).foldl (projStep f) os = rest.foldl (projStep f) (projStep f os e) :=
      rfl
    rw [h1, ih]
    unfold presentCount
    rw [List.countP_cons]
    cases hl : lookupAttr f e with
    | none =>
      have hp : projStep f os e = os := by unfold projStep; rw [hl]
      rw [hp]
      simp [hl]
    | some v =>
      have hp : projStep f os e = some (updStat v (os.getD defaultStat)) := by
        unfold projStep; rw [hl]
      rw [hp]
      cases os <;> simp [defaultStat, hl, updStat_present] <;> omega

theorem projFold_non_empty (f : List Char) :
    ∀ (elements : List (List (List Char × List Char))) (os : Option RawStat),
      ((elements.foldl (projStep f) os).map RawStat.non_empty).getD 0 =
        (os.map RawStat.non_empty).getD 0 + nonEmptyCount f elements := by
  intro elements
  induction elements with
  | nil => intro os; simp [nonEmptyCount]
  | cons e rest ih =>
    intro os
    have h1 : (e :: rest).foldl (projStep f) os = rest.foldl (projStep f) (projStep f os e) :=
      rfl
    rw [h1, ih]
    unfold nonEmptyCount
    rw [List.countP_cons]
    cases hl : lookupAttr f e with
    | none =>
      have hp : projStep f os e = os := by unfold projStep; rw [hl]
      have ho : occNonEmpty f e = false := by unfold occNonEmpty; rw [hl]
      rw [hp]
      simp [ho]
    | some v =>
      have hp : projStep f os e = some (updStat v (os.getD defaultStat)) := by
        unfold projStep; rw [hl]
      have ho : occNonEmpty f e = decide (pyStrip v ≠ []) := by unfold occNonEmpty; rw [hl]
      rw [hp]
      by_cases hs : pyStrip v = [] <;> cases os <;>
        simp [defaultStat, ho, hs, updStat_non_empty] <;> omega

theorem projFold_isSome (f : List Char) :
    ∀ (elements : List (List (List Char × List Char))) (os : Option RawStat),
      (elements.foldl (projStep f) os).isSome =
        (os.isSome || elements.any (fun e => (lookupAttr f e).isSome)) := by
  intro elements
  induction elements with
  | nil => intro os; simp
  | cons e rest ih =>
    intro os
    have h1 : (e :: rest).foldl (projStep f) os = rest.foldl (projStep f) (projStep f os e) :=
      rfl
    rw [h1, ih]
    cases hl : lookupAttr f e with
    | none =>
      have hp : projStep f os e = os := by unfold projStep; rw [hl]
      rw [hp]
      simp [List.any_cons, hl]
    | some v =>
      have hp : projStep f os e = some (updStat v (os.getD defaultStat)) := by
        unfold projStep; rw [hl]
      rw [hp]
      simp [List.any_cons, hl]

theorem lookupField_map (f : List Char) (g : Nat) (st : List (List Char × RawStat)) :
    lookupField f (st.map (fun p => (p.1, finalize g p.2))) =
      (lookupStat f st).map (finalize g) := by
  induction st with
  | nil => rfl
  | cons p rest ih =>
    by_cases h : p.1 = f <;> simp [lookupField, lookupStat, h, ih]

theorem keys_bumpField (k v : List Char) (st : List (List Char × RawStat)) :
    (bumpField k v st).map Prod.fst =
      if k ∈ st.map Prod.fst then st.map Prod.fst else st.map Prod.fst ++ [k] := by
  induction st with
  | nil => simp [bumpField]
  | cons p rest ih =>
    simp only [bumpField, List.map_cons]
    by_cases hp : p.1 = k
    · rw [if_pos hp, if_pos (by rw [hp]; exact List.mem_cons_self _ _)]
      simp [hp]
    · rw [if_neg hp]
      simp only [List.map_cons, ih]
      by_cases hm : k ∈ rest.map Prod.fst
      · rw [if_pos hm, if_pos (List.mem_cons_of_mem _ hm)]
      · rw [if_neg hm, if_neg (by
          simp only [List.mem_cons]
          rintro (h | h)
          · exact hp h.symm
          · exact hm h)]
        simp

theorem nodup_keys_bumpField (k v : List Char) (st : List (List Char × RawStat))
    (h : (st.map Prod.fst).Nodup) : ((bumpField k v st).map Prod.fst).Nodup := by
  rw [keys_bumpField]
  split
  · exact h
  · rename_i hm
    simp [List.nodup_append, h, hm]

theorem nodup_keys_stepElem (elem : List (List Char × List Char)) :
    ∀ st, (st.map Prod.fst).Nodup → ((stepElem st elem).map Prod.fst).Nodup := by
  induction elem with
  | nil => intro st h; exact h
  | cons p rest ih =>
    intro st h
    exact ih (bumpField p.1 p.2 st) (nodup_keys_bumpField p.1 p.2 st h)

theorem fieldStats_keys_nodup (elements : List (List (List Char × List Char))) :
    ((fieldStats elements).map Prod.fst).Nodup := by
  unfold fieldStats
  have : ∀ (l : List (List (List Char × List Char))) st, (st.map Prod.fst).Nodup →
      ((l.foldl stepElem st).map Prod.fst).Nodup := by
    intro l
    induction l with
    | nil => intro st h; exact h
    | cons e rest ih =>
      intro st h
      exact ih (stepElem st e) (nodup_keys_stepElem e st h)
  exact this elements [] (by simp)

theorem lookupStat_of_mem :
    ∀ {st : List (List Char × RawStat)}, (st.map Prod.fst).Nodup →
      ∀ {p : List Char × RawStat}, p ∈ st → lookupStat p.1 st = some p.2 := by
  intro st
  induction st with
  | nil => intro _ p hp; cases hp
  | cons q rest ih =>
    intro hnd p hp
    simp only [List.map_cons, List.nodup_cons] at hnd
    rcases List.mem_cons.mp hp with h | h
    · subst h
      simp [lookupStat]
    · simp only [lookupStat]
      rw [if_neg (fun hq => hnd.1 (by rw [hq]; exact List.mem_map_of_mem Prod.fst h))]
      exact ih hnd.2 h

/-! ### The spec's worked scenario (claim C1) -/

/-- The scenario input `<Trade id="1" qty="10" /><Trade id="2" qty="" /><Trade id="3" />`. -/
def scenarioDoc : List Char :=
  "<Trade id=\"1\" qty=\"10\" /><Trade id=\"2\" qty=\"\" /><Trade id=\"3\" />".toList

def tradeTag : List Char := "Trade".toList

def idKey : List Char := "id".toList

def qtyKey : List Char := "qty".toList

theorem scenario_fieldStats :
    fieldStats (extract_elements scenarioDoc tradeTag) =
      [(idKey, ⟨3, 3, [['1'], ['2'], ['3']]⟩), (qtyKey, ⟨2, 1, [['1', '0']]⟩)] := by
  decide

theorem scenario_analyze :
    analyze_fields (extract_elements scenarioDoc tradeTag) =
      [(idKey, finalize 3 ⟨3, 3, [['1'], ['2'], ['3']]⟩),
       (qtyKey, finalize 3 ⟨2, 1, [['1', '0']]⟩)] := by
  unfold analyze_fields
  rw [show (extract_elements scenarioDoc tradeTag).length = 3 from by decide]
  rw [if_neg (by norm_num), scenario_fieldStats]
  rfl

theorem scenario_id_pct :
    (finalize 3 ⟨3, 3, [['1'], ['2'], ['3']]⟩).non_empty_pct = 100 := by
  norm_num [finalize]

theorem scenario_qty_pct :
    (finalize 3 ⟨2, 1, [['1', '0']]⟩).non_empty_pct = 100 / 3 := by
  norm_num [finalize]

theorem scenario_sorted :
    List.insertionSort keyLe
      [(idKey, finalize 3 ⟨3, 3, [['1'], ['2'], ['3']]⟩),
       (qtyKey, finalize 3 ⟨2, 1, [['1', '0']]⟩)] =
      [(idKey, finalize 3 ⟨3, 3, [['1'], ['2'], ['3']]⟩),
       (qtyKey, finalize 3 ⟨2, 1, [['1', '0']]⟩)] := by
  simp only [List.insertionSort, List.orderedInsert]
  rw [if_pos (show keyLe _ _ by decide)]

theorem scenario_catego :
    categorize_fields (analyze_fields (extract_elements scenarioDoc tradeTag)) 3 =
      ([(idKey, finalize 3 ⟨3, 3, [['1'], ['2'], ['3']]⟩)], [],
       [(qtyKey, finalize 3 ⟨2, 1, [['1', '0']]⟩)]) := by
  rw [categorize_fields, scenario_analyze, scenario_sorted]
  norm_num [categoGo, finalize]

/-- C1: on the document `<Trade id="1" qty="10" /><Trade id="2" qty="" /><Trade id="3" />`
analysed for element type `Trade` (3 occurrences), the pipeline reports for `id`
present = 3, non_empty = 3, non_empty_pct = 100 (placed alone in the Always
bucket), and for `qty` present = 2, non_empty = 1, non_empty_pct = 100/3
(exactly one third of the total 3, the spec's "33.3"; placed alone in the
Rarely bucket). -/
theorem claim_C1 :
    (extract_elements scenarioDoc tradeTag).length = 3 ∧
    (∃ r, lookupField idKey (analyze_fields (extract_elements scenarioDoc tradeTag))
          = some r ∧
        r.present = 3 ∧ r.non_empty = 3 ∧ r.non_empty_pct = 100) ∧
    (∃ r, lookupField qtyKey (analyze_fields (extract_elements scenarioDoc tradeTag))
          = some r ∧
        r.present = 2 ∧ r.non_empty = 1 ∧ r.non_empty_pct = 100 / 3) ∧
    (categorize_fields (analyze_fields (extract_elements scenarioDoc tradeTag)) 3).1.map
        Prod.fst = [idKey] ∧
    (categorize_fields (analyze_fields (extract_elements scenarioDoc tradeTag)) 3).2.2.map
        Prod.fst = [qtyKey] := by
  refine ⟨by decide, ?_, ?_, ?_, ?_⟩
  · refine ⟨_, ?_, rfl, rfl, scenario_id_pct⟩
    rw [scenario_analyze]
    simp [lookupField]
  · refine ⟨_, ?_, rfl, rfl, scenario_qty_pct⟩
    rw [scenario_analyze]
    simp [lookupField, idKey, qtyKey]
  · rw [scenario_catego]
    simp
  · rw [scenario_catego]
    simp

/-- C3: for every non-empty sequence of occurrence mappings (each a mapping,
i.e. with distinct attribute names) and every attribute observed in `N` of the
occurrences of which `K` carry a value that strips to non-empty, the Aggregator
reports `present = N`, `present_pct = N/total*100`, `non_empty = K` and
`non_empty_pct = K/total*100` (exactly, over `ℚ`). -/
theorem claim_C3 (elements : List (List (List Char × List Char)))
    (hne : elements ≠ [])
    (hnd : ∀ e ∈ elements, (e.map Prod.fst).Nodup)
    (f : List Char) (hobs : 0 < presentCount f elements) :
    ∃ r, lookupField f (analyze_fields elements) = some r ∧
      r.present = presentCount f elements ∧
      r.present_pct = (presentCount f elements : ℚ) / (elements.length : ℚ) * 100 ∧
      r.non_empty = nonEmptyCount f elements ∧
      r.non_empty_pct = (nonEmptyCount f elements : ℚ) / (elements.length : ℚ) * 100 := by
  have hlen : ¬ elements.length = 0 := fun h => hne (List.length_eq_zero.mp h)
  have hproj := lookupStat_fieldStats f elements hnd
  have hisSome : (elements.foldl (projStep f) none).isSome = true := by
    rw [projFold_isSome]
    simp only [Option.isSome_none, Bool.false_or, List.any_eq_true]
    exact List.countP_pos_iff.mp hobs
  obtain ⟨s, hs⟩ := Option.isSome_iff_exists.mp hisSome
  have hpres : s.present = presentCount f elements := by
    have h := projFold_present f elements none
    rw [hs] at h
    simpa using h
  have hnon : s.non_empty = nonEmptyCount f elements := by
    have h := projFold_non_empty f elements none
    rw [hs] at h
    simpa using h
  have hlook : lookupStat f (fieldStats elements) = some s := by rw [hproj, hs]
  refine ⟨finalize elements.length s, ?_, ?_, ?_, ?_, ?_⟩
  · unfold analyze_fields
    rw [if_neg hlen, lookupField_map, hlook]
    rfl
  · exact hpres
  · simp only [finalize]
    rw [hpres]
  · exact hnon
  · simp only [finalize]
    rw [if_pos (by rw [hpres]; exact hobs), hnon]

/-- Witness for C3 at the scenario document and attribute `qty`. -/
theorem claim_C3_witness :
    extract_elements scenarioDoc tradeTag ≠ [] ∧
    (∀ e ∈ extract_elements scenarioDoc tradeTag, (e.map Prod.fst).Nodup) ∧
    0 < presentCount qtyKey (extract_elements scenarioDoc tradeTag) ∧
    ∃ r, lookupField qtyKey (analyze_fields (extract_elements scenarioDoc tradeTag))
          = some r ∧
      r.present = presentCount qtyKey (extract_elements scenarioDoc tradeTag) ∧
      r.present_pct = (presentCount qtyKey (extract_elements scenarioDoc tradeTag) : ℚ) /
        ((extract_elements scenarioDoc tradeTag).length : ℚ) * 100 ∧
      r.non_empty = nonEmptyCount qtyKey (extract_elements scenarioDoc tradeTag) ∧
      r.non_empty_pct = (nonEmptyCount qtyKey (extract_elements scenarioDoc tradeTag) : ℚ) /
        ((extract_elements scenarioDoc tradeTag).length : ℚ) * 100 :=
  ⟨by decide, by decide, by decide,
    claim_C3 (extract_elements scenarioDoc tradeTag) (by decide) (by decide) qtyKey
      (by decide)⟩

/-- C8: for every non-empty input of occurrence mappings, every field statistic
reported by the Aggregator satisfies `1 ≤ present ≤ total` and
`non_empty ≤ present`, and `non_empty_pct` is computed by the division branch
(never the `else 0` fallback of the `present > 0` guard). -/
theorem claim_C8 (elements : List (List (List Char × List Char)))
    (hnd : ∀ e ∈ elements, (e.map Prod.fst).Nodup) :
    ∀ p ∈ analyze_fields elements,
      1 ≤ p.2.present ∧ p.2.present ≤ elements.length ∧ p.2.non_empty ≤ p.2.present ∧
      p.2.non_empty_pct = (p.2.non_empty : ℚ) / (elements.length : ℚ) * 100 := by
  intro p hp
  unfold analyze_fields at hp
  by_cases hlen : elements.length = 0
  · rw [if_pos hlen] at hp
    cases hp
  · rw [if_neg hlen] at hp
    obtain ⟨q, hq, hpq⟩ := List.mem_map.mp hp
    have hlook : lookupStat q.1 (fieldStats elements) = some q.2 :=
      lookupStat_of_mem (fieldStats_keys_nodup elements) hq
    rw [lookupStat_fieldStats q.1 elements hnd] at hlook
    have hpres : q.2.present = presentCount q.1 elements := by
      have h := projFold_present q.1 elements none
      rw [hlook] at h
      simpa using h
    have hnon : q.2.non_empty = nonEmptyCount q.1 elements := by
      have h := projFold_non_empty q.1 elements none
      rw [hlook] at h
      simpa using h
    have hobs : 0 < presentCount q.1 elements := by
      have hisSome : (elements.foldl (projStep q.1) none).isSome = true := by
        rw [hlook]; rfl
      rw [projFold_isSome] at hisSome
      simp only [Option.isSome_none, Bool.false_or, List.any_eq_true] at hisSome
      exact List.countP_pos_iff.mpr hisSome
    have hKN : nonEmptyCount q.1 elements ≤ presentCount q.1 elements := by
      apply List.countP_mono_left
      intro e _ he
      unfold occNonEmpty at he
      cases hl : lookupAttr q.1 e with
      | none => rw [hl] at he; cases he
      | some v => simp [hl]
    subst hpq
    refine ⟨?_, ?_, ?_, ?_⟩
    · show 1 ≤ q.2.present
      rw [hpres]
      exact hobs
    · show q.2.present ≤ elements.length
      rw [hpres]
      unfold presentCount
      exact List.countP_le_length _
    · show q.2.non_empty ≤ q.2.present
      rw [hpres, hnon]
      exact hKN
    · show (if q.2.present > 0 then (q.2.non_empty : ℚ) / (elements.length : ℚ) * 100 else 0)
        = (q.2.non_empty : ℚ) / (elements.length : ℚ) * 100
      rw [if_pos (by rw [hpres]; exact hobs)]

/-- Witness for C8 at the scenario document, evaluated at the `qty` entry. -/
theorem claim_C8_witness :
    (∀ e ∈ extract_elements scenarioDoc tradeTag, (e.map Prod.fst).Nodup) ∧
    ((qtyKey, finalize 3 ⟨2, 1, [['1', '0']]⟩) ∈
      analyze_fields (extract_elements scenarioDoc tradeTag)) ∧
    (1 ≤ (finalize 3 ⟨2, 1, [['1', '0']]⟩).present ∧
      (finalize 3 ⟨2, 1, [['1', '0']]⟩).present ≤
        (extract_elements scenarioDoc tradeTag).length ∧
      (finalize 3 ⟨2, 1, [['1', '0']]⟩).non_empty ≤
        (finalize 3 ⟨2, 1, [['1', '0']]⟩).present ∧
      (finalize 3 ⟨2, 1, [['1', '0']]⟩).non_empty_pct =
        ((finalize 3 ⟨2, 1, [['1', '0']]⟩).non_empty : ℚ) /
          ((extract_elements scenarioDoc tradeTag).length : ℚ) * 100) := by
  have hmem : (qtyKey, finalize 3 ⟨2, 1, [['1', '0']]⟩) ∈
      analyze_fields (extract_elements scenarioDoc tradeTag) := by
    rw [scenario_analyze]
    exact List.mem_cons_of_mem _ (List.mem_cons_self _ _)
  exact ⟨by decide, hmem,
    claim_C8 (extract_elements scenarioDoc tradeTag) (by decide) _ hmem⟩

theorem countP_eq_one_of_nodup {α : Type} [DecidableEq α] :
    ∀ (l : List α), l.Nodup → ∀ {a : α}, a ∈ l → l.countP (fun g => g = a) = 1 := by
  intro l
  induction l with
  | nil => intro _ a ha; cases ha
  | cons b rest ih =>
    intro h a ha
    simp only [List.nodup_cons] at h
    rw [List.countP_cons]
    rcases List.mem_cons.mp ha with hb | hb
    · subst hb
      rw [if_pos (by simp)]
      have hz : rest.countP (fun g => decide (g = a)) = 0 := by
        rw [List.countP_eq_zero]
        intro x hx
        simp only [decide_eq_true_eq]
        exact fun hxa => h.1 (hxa ▸ hx)
      omega
    · rw [if_neg (by
        simp only [decide_eq_true_eq]
        exact fun hba => h.1 (hba ▸ hb))]
      rw [ih h.2 hb]

theorem categoGo_eq (l : List (List Char × FieldResult)) :
    categoGo l =
      (l.filter (fun p => decide (p.2.non_empty_pct ≥ (999 : ℚ) / 10)),
       l.filter (fun p =>
         decide (¬ p.2.non_empty_pct ≥ (999 : ℚ) / 10 ∧ p.2.non_empty_pct ≥ (50 : ℚ))),
       l.filter (fun p =>
         decide (¬ p.2.non_empty_pct ≥ (999 : ℚ) / 10 ∧ ¬ p.2.non_empty_pct ≥ (50 : ℚ)))) := by
  induction l with
  | nil => rfl
  | cons p rest ih =>
    simp only [categoGo, ih]
    by_cases h1 : p.2.non_empty_pct ≥ (999 : ℚ) / 10
    · simp [h1, List.filter_cons]
    · by_cases h2 : p.2.non_empty_pct ≥ (50 : ℚ)
      · simp [h1, h2, lt_of_not_ge h1, List.filter_cons]
      · simp [h1, h2, lt_of_not_ge h1, lt_of_not_ge h2, List.filter_cons]

theorem analyze_keys (elements : List (List (List Char × List Char))) :
    (analyze_fields elements).map Prod.fst = (fieldStats elements).map Prod.fst := by
  unfold analyze_fields
  split
  · rename_i h
    have : elements = [] := List.length_eq_zero.mp h
    subst this
    rfl
  · rw [List.map_map]
    rfl

/-- C2: categorization is total and partitioning.  For every Aggregator result:
the three buckets together are a permutation of the result map, the result's
attribute names are distinct (so each name lands in exactly one bucket: its
count over the concatenated buckets is 1), each bucket is sorted by attribute
name ascending, and the buckets respect the thresholds 99.9 and 50 on
`non_empty_pct`. -/
theorem claim_C2 (elements : List (List (List Char × List Char))) (total : Nat) :
    ((categorize_fields (analyze_fields elements) total).1 ++
        (categorize_fields (analyze_fields elements) total).2.1 ++
        (categorize_fields (analyze_fields elements) total).2.2).Perm
      (analyze_fields elements) ∧
    ((analyze_fields elements).map Prod.fst).Nodup ∧
    List.Sorted keyLe (categorize_fields (analyze_fields elements) total).1 ∧
    List.Sorted keyLe (categorize_fields (analyze_fields elements) total).2.1 ∧
    List.Sorted keyLe (categorize_fields (analyze_fields elements) total).2.2 ∧
    (∀ p ∈ (categorize_fields (analyze_fields elements) total).1,
      p.2.non_empty_pct ≥ (999 : ℚ) / 10) ∧
    (∀ p ∈ (categorize_fields (analyze_fields elements) total).2.1,
      (50 : ℚ) ≤ p.2.non_empty_pct ∧ p.2.non_empty_pct < (999 : ℚ) / 10) ∧
    (∀ p ∈ (categorize_fields (analyze_fields elements) total).2.2,
      p.2.non_empty_pct < (50 : ℚ)) ∧
    (∀ f ∈ (analyze_fields elements).map Prod.fst,
      (((categorize_fields (analyze_fields elements) total).1 ++
          (categorize_fields (analyze_fields elements) total).2.1 ++
          (categorize_fields (analyze_fields elements) total).2.2).map Prod.fst).countP
        (fun g => g = f) = 1) := by
  have hnodup : ((analyze_fields elements).map Prod.fst).Nodup := by
    rw [analyze_keys]
    exact fieldStats_keys_nodup elements
  have hsorted : List.Sorted keyLe
      (List.insertionSort keyLe (analyze_fields elements)) :=
    List.sorted_insertionSort keyLe (analyze_fields elements)
  have hsperm : (List.insertionSort keyLe (analyze_fields elements)).Perm
      (analyze_fields elements) :=
    List.perm_insertionSort keyLe (analyze_fields elements)
  have hcat : categorize_fields (analyze_fields elements) total =
      categoGo (List.insertionSort keyLe (analyze_fields elements)) := rfl
  rw [hcat, categoGo_eq]
  set l := List.insertionSort keyLe (analyze_fields elements) with hl
  have hperm : (l.filter (fun p => decide (p.2.non_empty_pct ≥ (999 : ℚ) / 10)) ++
      l.filter (fun p =>
        decide (¬ p.2.non_empty_pct ≥ (999 : ℚ) / 10 ∧ p.2.non_empty_pct ≥ (50 : ℚ))) ++
      l.filter (fun p =>
        decide (¬ p.2.non_empty_pct ≥ (999 : ℚ) / 10 ∧
          ¬ p.2.non_empty_pct ≥ (50 : ℚ)))).Perm (analyze_fields elements) := by
    have h23 : (l.filter (fun p =>
          decide (¬ p.2.non_empty_pct ≥ (999 : ℚ) / 10 ∧ p.2.non_empty_pct ≥ (50 : ℚ))) ++
        l.filter (fun p =>
          decide (¬ p.2.non_empty_pct ≥ (999 : ℚ) / 10 ∧
            ¬ p.2.non_empty_pct ≥ (50 : ℚ)))).Perm
        (l.filter (fun p => !(decide (p.2.non_empty_pct ≥ (999 : ℚ) / 10)))) := by
      have e2 : l.filter (fun p =>
            decide (¬ p.2.non_empty_pct ≥ (999 : ℚ) / 10 ∧ p.2.non_empty_pct ≥ (50 : ℚ))) =
          (l.filter (fun p => !(decide (p.2.non_empty_pct ≥ (999 : ℚ) / 10)))).filter
            (fun p => decide (p.2.non_empty_pct ≥ (50 : ℚ))) := by
        rw [List.filter_filter]
        apply List.filter_congr
        intro p _
        by_cases hp1 : p.2.non_empty_pct ≥ (999 : ℚ) / 10 <;>
          by_cases hp2 : p.2.non_empty_pct ≥ (50 : ℚ) <;> simp [hp1, hp2]
      have e3 : l.filter (fun p =>
            decide (¬ p.2.non_empty_pct ≥ (999 : ℚ) / 10 ∧
              ¬ p.2.non_empty_pct ≥ (50 : ℚ))) =
          (l.filter (fun p => !(decide (p.2.non_empty_pct ≥ (999 : ℚ) / 10)))).filter
            (fun p => !(decide (p.2.non_empty_pct ≥ (50 : ℚ)))) := by
        rw [List.filter_filter]
        apply List.filter_congr
        intro p _
        by_cases hp1 : p.2.non_empty_pct ≥ (999 : ℚ) / 10 <;>
          by_cases hp2 : p.2.non_empty_pct ≥ (50 : ℚ) <;> simp [hp1, hp2]
      rw [e2, e3]
      exact List.filter_append_perm _ _
    have h123 := (List.Perm.append_left
      (l.filter (fun p => decide (p.2.non_empty_pct ≥ (999 : ℚ) / 10))) h23)
    have hfin := h123.trans (List.filter_append_perm _ l)
    rw [List.append_assoc]
    exact hfin.trans hsperm
  refine ⟨hperm, hnodup, ?_, ?_, ?_, ?_, ?_, ?_, ?_⟩
  · exact hsorted.sublist (List.filter_sublist l)
  · exact hsorted.sublist (List.filter_sublist l)
  · exact hsorted.sublist (List.filter_sublist l)
  · intro p hp
    have := (List.mem_filter.mp hp).2
    exact of_decide_eq_true this
  · intro p hp
    have := of_decide_eq_true (List.mem_filter.mp hp).2
    exact ⟨this.2, lt_of_not_ge this.1⟩
  · intro p hp
    have := of_decide_eq_true (List.mem_filter.mp hp).2
    exact lt_of_not_ge this.2
  · intro f hf
    exact ((hperm.map Prod.fst).countP_eq _).trans (countP_eq_one_of_nodup _ hnodup hf)

/-- Witness for C2 at the scenario document: the `id` entry is in the Always
bucket (pct ≥ 99.9) and the `qty` entry is in the Rarely bucket (pct < 50). -/
theorem claim_C2_witness :
    (finalize 3 ⟨3, 3, [['1'], ['2'], ['3']]⟩).non_empty_pct ≥ (999 : ℚ) / 10 ∧
    (finalize 3 ⟨2, 1, [['1', '0']]⟩).non_empty_pct < (50 : ℚ) := by
  have h := claim_C2 (extract_elements scenarioDoc tradeTag) 3
  constructor
  · apply h.2.2.2.2.2.1 (idKey, finalize 3 ⟨3, 3, [['1'], ['2'], ['3']]⟩)
    rw [scenario_catego]
    exact List.mem_cons_self _ _
  · apply h.2.2.2.2.2.2.2.1 (qtyKey, finalize 3 ⟨2, 1, [['1', '0']]⟩)
    rw [scenario_catego]
    exact List.mem_cons_self _ _

/-- C5: when the Extractor finds zero occurrences of an element type, the
Aggregator produces an empty statistics map (no division happens), and the
per-type report is only the header and the "Found 0 elements" line, with no
category sections. -/
theorem claim_C5 (doc elemType : List Char)
    (h : extract_elements doc elemType = []) :
    analyze_fields (extract_elements doc elemType) = [] ∧
    reportForType doc elemType =
      [ReportLine.header elemType, ReportLine.found 0 elemType] := by
  constructor
  · rw [h]
    rfl
  · unfold reportForType
    rw [h]
    rfl

def caTag : List Char := "CorporateAction".toList

/-- Witness for C5: the scenario document contains no `CorporateAction`
elements. -/
theorem claim_C5_witness :
    extract_elements scenarioDoc caTag = [] ∧
    analyze_fields (extract_elements scenarioDoc caTag) = [] ∧
    reportForType scenarioDoc caTag =
      [ReportLine.header caTag, ReportLine.found 0 caTag] := by
  have h : extract_elements scenarioDoc caTag = [] := by decide
  exact ⟨h, claim_C5 scenarioDoc caTag h⟩

/-- C10: the Extractor's pattern matches only when at least one whitespace
character immediately follows the tag name (any successful match starts with
`<`, the tag, then a whitespace character), so a tag whose name strictly
extends the requested name is never matched; in particular
`<TradeConfirm qty="1" />` yields no `Trade` occurrence. -/
theorem claim_C10 :
    (∀ tag l cap rest, matchOpen tag l = some (cap, rest) →
      ∃ c rest2, l = '<' :: (tag ++ c :: rest2) ∧ isWS c = true) ∧
    extract_elements ("<TradeConfirm qty=\"1\" />".toList) tradeTag = [] := by
  constructor
  · intro tag l cap rest h
    unfold matchOpen at h
    split at h
    · cases h
    · rename_i c0 cs0
      split at h
      · rename_i hc0
        split at h
        · rename_i c rest2 hdl
          split at h
          · rename_i hws
            exact ⟨c, rest2, by rw [hc0, dropLit_eq_append hdl], hws⟩
          · cases h
        · cases h
      · cases h
  · decide

/-- Witness for C10: a successful concrete match, with the whitespace
character it guarantees. -/
theorem claim_C10_witness :
    matchOpen tradeTag ("<Trade />".toList) = some ([], []) ∧
    ∃ c rest2, "<Trade />".toList = '<' :: (tradeTag ++ c :: rest2) ∧ isWS c = true := by
  have h : matchOpen tradeTag ("<Trade />".toList) = some ([], []) := by decide
  exact ⟨h, claim_C10.1 tradeTag ("<Trade />".toList) [] [] h⟩

/-- The value of the last pair carrying key `k` (the claim's "keeps only the
last value", modelled from the spec for comparison with the built dict). -/
def lastVal (k : List Char) : List (List Char × List Char) → Option (List Char)
  | [] => none
  | p :: rest =>
    match lastVal k rest with
    | some v => some v
    | none => if p.1 = k then some p.2 else none

theorem lookupAttr_dictInsert_self (k v : List Char)
    (d : List (List Char × List Char)) :
    lookupAttr k (dictInsert k v d) = some v := by
  induction d with
  | nil => simp [dictInsert, lookupAttr]
  | cons p rest ih =>
    simp only [dictInsert]
    by_cases h : p.1 = k
    · rw [if_pos h]
      simp [lookupAttr]
    · rw [if_neg h]
      simp [lookupAttr, h, ih]

theorem lookupAttr_dictInsert_other (f k v : List Char)
    (d : List (List Char × List Char)) (h : k ≠ f) :
    lookupAttr f (dictInsert k v d) = lookupAttr f d := by
  induction d with
  | nil => simp [dictInsert, lookupAttr, h]
  | cons p rest ih =>
    simp only [dictInsert]
    by_cases hp : p.1 = k
    · rw [if_pos hp]
      simp only [lookupAttr]
      rw [if_neg (by rw [hp] at *; exact h), if_neg (by rw [hp]; exact h)]
    · rw [if_neg hp]
      simp only [lookupAttr]
      split
      · rfl
      · exact ih

theorem lookupAttr_pyDict_fold (k : List Char) :
    ∀ (pairs : List (List Char × List Char)) (d : List (List Char × List Char)),
      lookupAttr k (pairs.foldl (fun d p => dictInsert p.1 p.2 d) d) =
        match lastVal k pairs with
        | some v => some v
        | none => lookupAttr k d := by
  intro pairs
  induction pairs with
  | nil => intro d; rfl
  | cons p rest ih =>
    intro d
    have h1 : (p :: rest).foldl (fun d q => dictInsert q.1 q.2 d) d =
        rest.foldl (fun d q => dictInsert q.1 q.2 d) (dictInsert p.1 p.2 d) := rfl
    rw [h1, ih]
    simp only [lastVal]
    cases lastVal k rest with
    | some v => rfl
    | none =>
      by_cases hp : p.1 = k
      · rw [if_pos hp, hp, lookupAttr_dictInsert_self]
      · rw [if_neg hp, lookupAttr_dictInsert_other k p.1 p.2 d hp]

theorem keys_dictInsert (k v : List Char) (d : List (List Char × List Char)) :
    (dictInsert k v d).map Prod.fst =
      if k ∈ d.map Prod.fst then d.map Prod.fst else d.map Prod.fst ++ [k] := by
  induction d with
  | nil => simp [dictInsert]
  | cons p rest ih =>
    simp only [dictInsert, List.map_cons]
    by_cases hp : p.1 = k
    · rw [if_pos hp, if_pos (by rw [hp]; exact List.mem_cons_self _ _)]
      simp [hp]
    · rw [if_neg hp]
      simp only [List.map_cons, ih]
      by_cases hm : k ∈ rest.map Prod.fst
      · rw [if_pos hm, if_pos (List.mem_cons_of_mem _ hm)]
      · rw [if_neg hm, if_neg (by
          simp only [List.mem_cons]
          rintro (h | h)
          · exact hp h.symm
          · exact hm h)]
        simp

theorem nodup_keys_dictInsert (k v : List Char) (d : List (List Char × List Char))
    (h : (d.map Prod.fst).Nodup) : ((dictInsert k v d).map Prod.fst).Nodup := by
  rw [keys_dictInsert]
  split
  · exact h
  · rename_i hm
    simp [List.nodup_append, h, hm]

theorem pyDict_keys_nodup (pairs : List (List Char × List Char)) :
    ((pyDict pairs).map Prod.fst).Nodup := by
  unfold pyDict
  have : ∀ (l : List (List Char × List Char)) d, (d.map Prod.fst).Nodup →
      ((l.foldl (fun d p => dictInsert p.1 p.2 d) d).map Prod.fst).Nodup := by
    intro l
    induction l with
    | nil => intro d h; exact h
    | cons p rest ih =>
      intro d h
      exact ih (dictInsert p.1 p.2 d) (nodup_keys_dictInsert p.1 p.2 d h)
  exact this pairs [] (by simp)

theorem stepElem_present_le (elem : List (List Char × List Char))
    (hnd : (elem.map Prod.fst).Nodup) (st : List (List Char × RawStat)) (f : List Char) :
    ((lookupStat f (stepElem st elem)).map RawStat.present).getD 0 ≤
      ((lookupStat f st).map RawStat.present).getD 0 + 1 := by
  rw [lookupStat_stepElem f elem hnd st]
  cases hl : lookupAttr f elem with
  | none => simp
  | some v =>
    cases lookupStat f st <;> simp [updStat_present, defaultStat]

theorem stepElem_non_empty_le (elem : List (List Char × List Char))
    (hnd : (elem.map Prod.fst).Nodup) (st : List (List Char × RawStat)) (f : List Char) :
    ((lookupStat f (stepElem st elem)).map RawStat.non_empty).getD 0 ≤
      ((lookupStat f st).map RawStat.non_empty).getD 0 + 1 := by
  rw [lookupStat_stepElem f elem hnd st]
  cases hl : lookupAttr f elem with
  | none => simp
  | some v =>
    cases lookupStat f st <;> simp [updStat_non_empty, defaultStat] <;> split <;> omega

/-- C9: if a matched occurrence's capture carries the same attribute name more
than once, the occurrence's dict keeps only the last value for it (and its keys
are distinct), so processing the occurrence raises any attribute's `present`
tally by at most 1 and its `non_empty` tally by at most 1. -/
theorem claim_C9 (cap : List Char) (k : List Char)
    (hdup : 1 < (scanAttrs cap).countP (fun p => p.1 = k))
    (st : List (List Char × RawStat)) (f : List Char) :
    lookupAttr k (pyDict (scanAttrs cap)) = lastVal k (scanAttrs cap) ∧
    ((pyDict (scanAttrs cap)).map Prod.fst).Nodup ∧
    ((lookupStat f (stepElem st (pyDict (scanAttrs cap)))).map RawStat.present).getD 0 ≤
      ((lookupStat f st).map RawStat.present).getD 0 + 1 ∧
    ((lookupStat f (stepElem st (pyDict (scanAttrs cap)))).map RawStat.non_empty).getD 0 ≤
      ((lookupStat f st).map RawStat.non_empty).getD 0 + 1 := by
  have hnd := pyDict_keys_nodup (scanAttrs cap)
  refine ⟨?_, hnd, stepElem_present_le _ hnd st f, stepElem_non_empty_le _ hnd st f⟩
  have h := lookupAttr_pyDict_fold k (scanAttrs cap) []
  unfold pyDict
  rw [h]
  cases lastVal k (scanAttrs cap) with
  | some v => rfl
  | none => rfl

def dupCap : List Char := "a=\"1\" a=\"2\"".toList

def aKey : List Char := "a".toList

/-- Witness for C9 on the capture `a="1" a="2"`: the dict keeps `a = "2"`. -/
theorem claim_C9_witness :
    1 < (scanAttrs dupCap).countP (fun p => p.1 = aKey) ∧
    (lookupAttr aKey (pyDict (scanAttrs dupCap)) = lastVal aKey (scanAttrs dupCap) ∧
      ((pyDict (scanAttrs dupCap)).map Prod.fst).Nodup ∧
      ((lookupStat aKey (stepElem [] (pyDict (scanAttrs dupCap)))).map
          RawStat.present).getD 0 ≤
        ((lookupStat aKey ([] : List (List Char × RawStat))).map RawStat.present).getD 0
          + 1 ∧
      ((lookupStat aKey (stepElem [] (pyDict (scanAttrs dupCap)))).map
          RawStat.non_empty).getD 0 ≤
        ((lookupStat aKey ([] : List (List Char × RawStat))).map RawStat.non_empty).getD 0
          + 1) :=
  ⟨by decide, claim_C9 dupCap aKey (by decide) [] aKey⟩

/-! ### Well-formed self-closing documents (claims C6, C7) -/

theorem ws_cases {c : Char} (h : isWS c = true) :
    c = ' ' ∨ c = '\t' ∨ c = '\n' ∨ c = '\r' ∨ c = '\x0b' ∨ c = '\x0c' := by
  simp only [isWS, Bool.or_eq_true, decide_eq_true_eq] at h
  tauto

theorem ws_not_word {c : Char} (h : isWS c = true) : isWord c = false := by
  rcases ws_cases h with rfl | rfl | rfl | rfl | rfl | rfl <;> decide

theorem ws_ne_gt {c : Char} (h : isWS c = true) : c ≠ '>' := by
  rcases ws_cases h with rfl | rfl | rfl | rfl | rfl | rfl <;> decide

theorem ws_ne_lt {c : Char} (h : isWS c = true) : c ≠ '<' := by
  rcases ws_cases h with rfl | rfl | rfl | rfl | rfl | rfl <;> decide

theorem word_ne_lt {c : Char} (h : isWord c = true) : c ≠ '<' := by
  intro hc
  subst hc
  exact absurd h (by decide)

theorem word_not_ws {c : Char} (h : isWord c = true) : isWS c = false := by
  cases hws : isWS c with
  | false => rfl
  | true => rw [ws_not_word hws] at h; cases h

theorem dropLit_self (t : List Char) (z : List Char) : dropLit t (t ++ z) = some z := by
  induction t with
  | nil => rfl
  | cons c cs ih => simp [dropLit, ih]

theorem dropWS_all_ws {u : List Char} (h : ∀ c ∈ u, isWS c = true) (v : List Char) :
    dropWS (u ++ v) = dropWS v := by
  induction u with
  | nil => rfl
  | cons c cs ih =>
    simp only [List.cons_append, dropWS]
    rw [if_pos (h c (List.mem_cons_self _ _))]
    exact ih (fun x hx => h x (List.mem_cons_of_mem _ hx))

theorem dropWS_not_ws {c : Char} (h : isWS c = false) (cs : List Char) :
    dropWS (c :: cs) = c :: cs := by
  simp [dropWS, h]

/-- `headNotWS l` holds when `l` does not start with a whitespace character. -/
def headNotWS : List Char → Bool
  | [] => true
  | c :: _ => !isWS c

/-- `lastNotWS l` holds when `l` does not end with a whitespace character. -/
def lastNotWS (l : List Char) : Bool :=
  match l.getLast? with
  | none => true
  | some c => !isWS c

theorem lastNotWS_cons_cons {c d : Char} {l : List Char}
    (h : lastNotWS (c :: d :: l) = true) : lastNotWS (d :: l) = true := by
  unfold lastNotWS at *
  rwa [List.getLast?_cons_cons] at h

theorem tailMatch_all_ws {ws2 : List Char} (h : ∀ c ∈ ws2, isWS c = true)
    (r : List Char) : tailMatch (ws2 ++ '/' :: '>' :: r) = some r := by
  unfold tailMatch
  rw [dropWS_all_ws h, dropWS_not_ws (by decide)]
  change (if ('/' : Char) = '/' ∧ ('>' : Char) = '>' then some r else none) = some r
  rw [if_pos ⟨rfl, rfl⟩]

theorem lazyCapture_of_tailMatch {l rest : List Char} (h : tailMatch l = some rest) :
    lazyCapture l = some ([], rest) := by
  cases l with
  | nil => simp [tailMatch, dropWS] at h
  | cons c cs =>
    unfold lazyCapture
    rw [h]

/-- In `body ++ ws2 ++ "/>..."` with `body` nonempty, free of `>` and not
ending in whitespace, the pattern `\s*/>` does not match at the start. -/
theorem tailMatch_none_of_body :
    ∀ (body : List Char), body ≠ [] → (∀ c ∈ body, c ≠ '>') →
      lastNotWS body = true → ∀ (ws2 : List Char), (∀ c ∈ ws2, isWS c = true) →
      ∀ (r : List Char), tailMatch (body ++ ws2 ++ '/' :: '>' :: r) = none := by
  intro body
  induction body with
  | nil => intro h; cases h rfl
  | cons c body ih =>
    intro _ hgt hlast ws2 hws2 r
    cases body with
    | nil =>
      have hc : isWS c = false := by
        unfold lastNotWS at hlast
        simp only [List.getLast?_singleton] at hlast
        simpa using hlast
      unfold tailMatch
      simp only [List.singleton_append, List.cons_append]
      rw [dropWS_not_ws hc]
      cases ws2 with
      | nil =>
        change (if c = '/' ∧ ('/' : Char) = '>' then some ('>' :: r) else none) = none
        rw [if_neg]
        rintro ⟨h1, h2⟩
        cases h2
      | cons w ws2r =>
        change (if c = '/' ∧ w = '>' then some (ws2r ++ '/' :: '>' :: r) else none) = none
        rw [if_neg]
        rintro ⟨h1, h2⟩
        exact ws_ne_gt (hws2 w (List.mem_cons_self _ _)) h2
    | cons d body2 =>
      cases hcw : isWS c with
      | true =>
        have hstep : tailMatch (c :: d :: body2 ++ ws2 ++ '/' :: '>' :: r) =
            tailMatch (d :: body2 ++ ws2 ++ '/' :: '>' :: r) := by
          unfold tailMatch
          simp only [List.cons_append, dropWS]
          rw [if_pos hcw]
        rw [hstep]
        exact ih (by simp) (fun x hx => hgt x (List.mem_cons_of_mem _ hx))
          (lastNotWS_cons_cons hlast) ws2 hws2 r
      | false =>
        unfold tailMatch
        simp only [List.cons_append]
        rw [dropWS_not_ws hcw]
        change (if c = '/' ∧ d = '>' then some (body2 ++ ws2 ++ '/' :: '>' :: r) else none)
          = none
        rw [if_neg]
        rintro ⟨h1, h2⟩
        exact hgt d (by simp) h2

/-- The lazy capture on `body ++ ws2 ++ "/>" ++ r` is exactly `body` (the
shortest stop is at the start of the trailing whitespace `ws2`). -/
theorem lazyCapture_body :
    ∀ (body : List Char), (∀ c ∈ body, c ≠ '>') → lastNotWS body = true →
      ∀ (ws2 : List Char), (∀ c ∈ ws2, isWS c = true) →
      ∀ (r : List Char), lazyCapture (body ++ ws2 ++ '/' :: '>' :: r) = some (body, r) := by
  intro body
  induction body with
  | nil =>
    intro _ _ ws2 hws2 r
    simpa using lazyCapture_of_tailMatch (tailMatch_all_ws hws2 r)
  | cons c body ih =>
    intro hgt hlast ws2 hws2 r
    have htm := tailMatch_none_of_body (c :: body) (by simp) hgt hlast ws2 hws2 r
    have hrec : lazyCapture (body ++ ws2 ++ '/' :: '>' :: r) = some (body, r) := by
      cases body with
      | nil =>
        simpa using lazyCapture_of_tailMatch (tailMatch_all_ws hws2 r)
      | cons d body2 =>
        exact ih (fun x hx => hgt x (List.mem_cons_of_mem _ hx))
          (lastNotWS_cons_cons hlast) ws2 hws2 r
    show lazyCapture (c :: (body ++ ws2 ++ '/' :: '>' :: r)) = some (c :: body, r)
    unfold lazyCapture
    rw [show (c :: (body ++ ws2 ++ '/' :: '>' :: r)) =
      (c :: body ++ ws2 ++ '/' :: '>' :: r) from by simp, htm]
    rw [if_neg (hgt c (List.mem_cons_self _ _))]
    rw [hrec]
    rfl

/-- A well-formed self-closing element, as the spec's source domain guarantees:
`<tag` + whitespace + attribute text + optional whitespace + `/>`.  `body` is
the attribute text (empty for an element with no attributes). -/
structure WFElem where
  tag : List Char
  ws1 : List Char
  body : List Char
  ws2 : List Char
deriving DecidableEq

/-- Well-formedness: nonempty word-character tag, at least one whitespace after
the tag, whitespace-only separators, and attribute text free of `<`/`>` that
neither starts nor ends with whitespace. -/
def WFElem.ok (e : WFElem) : Prop :=
  e.tag ≠ [] ∧ (∀ c ∈ e.tag, isWord c = true) ∧
  e.ws1 ≠ [] ∧ (∀ c ∈ e.ws1, isWS c = true) ∧
  (∀ c ∈ e.ws2, isWS c = true) ∧
  (∀ c ∈ e.body, c ≠ '<' ∧ c ≠ '>') ∧
  headNotWS e.body = true ∧ lastNotWS e.body = true

instance (e : WFElem) : Decidable e.ok := by
  unfold WFElem.ok
  infer_instance

/-- The text of one well-formed element. -/
def WFElem.render (e : WFElem) : List Char :=
  '<' :: (e.tag ++ e.ws1 ++ e.body ++ e.ws2 ++ '/' :: '>' :: [])

/-- A document made of well-formed self-closing elements. -/
def renderDoc (elems : List WFElem) : List Char :=
  (elems.map WFElem.render).flatten

theorem matchOpen_cons_lt (tag rest : List Char) :
    matchOpen tag ('<' :: rest) =
      (match dropLit tag rest with
       | some (c :: rest2) => if isWS c = true then lazyCapture (dropWS rest2) else none
       | _ => none) := by
  unfold matchOpen
  exact if_pos rfl

theorem matchOpen_after_tag_cons (tag : List Char) (c : Char) (z : List Char) :
    matchOpen tag ('<' :: (tag ++ c :: z)) =
      if isWS c = true then lazyCapture (dropWS z) else none := by
  rw [matchOpen_cons_lt, dropLit_self]

/-- A successful match at a well-formed element of the requested tag captures
exactly the element's attribute text and resumes right after its `/>`. -/
theorem matchOpen_render_self (e : WFElem) (he : e.ok) (r : List Char) :
    matchOpen e.tag (e.render ++ r) = some (e.body, r) := by
  obtain ⟨htag, hword, hws1, hws1w, hws2w, hbody, hhead, hlast⟩ := he
  cases hw1 : e.ws1 with
  | nil => exact absurd hw1 hws1
  | cons w ws1r =>
    have hrender : e.render ++ r =
        '<' :: (e.tag ++ w :: (ws1r ++ e.body ++ e.ws2 ++ '/' :: '>' :: r)) := by
      unfold WFElem.render
      rw [hw1]
      simp
    rw [hrender, matchOpen_after_tag_cons]
    rw [if_pos (hws1w w (by rw [hw1]; exact List.mem_cons_self _ _))]
    have hws1r : ∀ c ∈ ws1r, isWS c = true := fun c hc =>
      hws1w c (by rw [hw1]; exact List.mem_cons_of_mem _ hc)
    rw [show ws1r ++ e.body ++ e.ws2 ++ '/' :: '>' :: r =
      ws1r ++ (e.body ++ e.ws2 ++ '/' :: '>' :: r) from by simp]
    rw [dropWS_all_ws hws1r]
    cases hb : e.body with
    | nil =>
      rw [show ([] : List Char) ++ e.ws2 ++ '/' :: '>' :: r = e.ws2 ++ '/' :: '>' :: r
        from by simp]
      rw [dropWS_all_ws hws2w, dropWS_not_ws (by decide)]
      exact lazyCapture_of_tailMatch
        (tailMatch_all_ws (fun c hc => absurd hc (List.not_mem_nil c)) r)
    | cons c bodyr =>
      have hcw : isWS c = false := by
        unfold headNotWS at hhead
        rw [hb] at hhead
        simpa using hhead
      rw [show (c :: bodyr) ++ e.ws2 ++ '/' :: '>' :: r =
        c :: (bodyr ++ e.ws2 ++ '/' :: '>' :: r) from by simp]
      rw [dropWS_not_ws hcw]
      rw [show c :: (bodyr ++ e.ws2 ++ '/' :: '>' :: r) =
        (c :: bodyr) ++ e.ws2 ++ '/' :: '>' :: r from by simp]
      exact lazyCapture_body (c :: bodyr) (fun x hx => ((hb ▸ hbody) x hx).2)
        (hb ▸ hlast) e.ws2 hws2w r

/-- A match attempt at the start of a well-formed element of a different tag
fails (the requested tag is all word characters). -/
theorem matchOpen_render_ne (e : WFElem) (he : e.ok) (tag : List Char)
    (hword : ∀ c ∈ tag, isWord c = true) (hne : e.tag ≠ tag) (r : List Char) :
    matchOpen tag (e.render ++ r) = none := by
  obtain ⟨htag, heword, hws1, hws1w, hws2w, hbody, hhead, hlast⟩ := he
  have hrender : e.render ++ r =
      '<' :: (e.tag ++ (e.ws1 ++ e.body ++ e.ws2 ++ '/' :: '>' :: r)) := by
    unfold WFElem.render
    simp
  rw [hrender, matchOpen_cons_lt]
  cases hdl : dropLit tag (e.tag ++ (e.ws1 ++ e.body ++ e.ws2 ++ '/' :: '>' :: r)) with
  | none => rfl
  | some rest1 =>
    have happ := dropLit_eq_append hdl
    rcases List.append_eq_append_iff.mp happ with ⟨t2, ht2, hu⟩ | ⟨t2, ht2, hu⟩
    · cases t2 with
      | nil =>
        rw [List.append_nil] at ht2
        exact absurd ht2.symm hne
      | cons d ds =>
        exfalso
        have hd : isWord d = true := hword d (by rw [ht2]; simp)
        cases hw1 : e.ws1 with
        | nil => exact hws1 hw1
        | cons w ws1r =>
          rw [hw1] at hu
          simp only [List.cons_append, List.append_assoc] at hu
          injection hu with h1 _
          rw [← h1] at hd
          rw [ws_not_word (hws1w w (by rw [hw1]; exact List.mem_cons_self _ _))] at hd
          cases hd
    · cases t2 with
      | nil =>
        rw [List.append_nil] at ht2
        exact absurd ht2 hne
      | cons d ds =>
        have hd : isWord d = true := heword d (by rw [ht2]; simp)
        have hrest1 : rest1 = d :: (ds ++ (e.ws1 ++ e.body ++ e.ws2 ++ '/' :: '>' :: r)) := by
          rw [hu]
          simp
        rw [hrest1]
        change (if isWS d = true then
          lazyCapture (dropWS (ds ++ (e.ws1 ++ e.body ++ e.ws2 ++ '/' :: '>' :: r)))
          else none) = none
        rw [if_neg (by rw [word_not_ws hd]; simp)]

theorem matchOpen_not_lt {c : Char} (hc : c ≠ '<') (tag rest : List Char) :
    matchOpen tag (c :: rest) = none := by
  unfold matchOpen
  exact if_neg hc

theorem render_tail_no_lt (e : WFElem) (he : e.ok) :
    ∀ c ∈ e.tag ++ e.ws1 ++ e.body ++ e.ws2 ++ '/' :: '>' :: [], c ≠ '<' := by
  obtain ⟨htag, hword, hws1, hws1w, hws2w, hbody, hhead, hlast⟩ := he
  intro c hc
  simp only [List.mem_append, List.mem_cons, List.mem_singleton] at hc
  rcases hc with ((((hc | hc) | hc) | hc) | hc | hc)
  · exact word_ne_lt (hword c hc)
  · exact ws_ne_lt (hws1w c hc)
  · exact (hbody c hc).1
  · exact ws_ne_lt (hws2w c hc)
  · subst hc; decide
  · simp at hc
    subst hc; decide

/-- Scanning passes over any prefix at whose suffix positions no match starts. -/
theorem findAll_append_none (tag : List Char) :
    ∀ (x r : List Char),
      (∀ a b, x = a ++ b → b ≠ [] → matchOpen tag (b ++ r) = none) →
      findAll tag (x ++ r) = findAll tag r := by
  intro x
  induction x with
  | nil => intro r _; rfl
  | cons c cs ih =>
    intro r hx
    have h0 : matchOpen tag (c :: (cs ++ r)) = none := by
      have := hx [] (c :: cs) rfl (by simp)
      rwa [List.cons_append] at this
    rw [List.cons_append, findAll_cons, h0]
    exact ih r (fun a b hab hb => hx (c :: a) b (by rw [hab, List.cons_append]) hb)

/-- No match starts anywhere inside a well-formed element of a different tag. -/
theorem matchOpen_inside_render_none (e : WFElem) (he : e.ok) (tag : List Char)
    (hword : ∀ c ∈ tag, isWord c = true) (hne : e.tag ≠ tag) (r : List Char) :
    ∀ a b, e.render = a ++ b → b ≠ [] → matchOpen tag (b ++ r) = none := by
  intro a b hab hb
  cases b with
  | nil => cases hb rfl
  | cons c b2 =>
    by_cases hc : c = '<'
    · subst hc
      have ha : a = [] := by
        cases a with
        | nil => rfl
        | cons a0 a2 =>
          exfalso
          unfold WFElem.render at hab
          rw [List.cons_append] at hab
          injection hab with h1 h2
          exact render_tail_no_lt e he '<'
            (by rw [h2]; simp) rfl
      subst ha
      rw [List.nil_append] at hab
      rw [List.cons_append, ← List.cons_append, ← hab]
      exact matchOpen_render_ne e he tag hword hne r
    · exact matchOpen_not_lt hc tag (b2 ++ r)

/-- The Extractor on a well-formed document returns exactly the attribute texts
of the elements carrying the requested tag, in document order. -/
theorem findAll_renderDoc (tag : List Char) (hword : ∀ c ∈ tag, isWord c = true) :
    ∀ (elems : List WFElem), (∀ e ∈ elems, e.ok) →
      findAll tag (renderDoc elems) =
        (elems.filter (fun e => decide (e.tag = tag))).map WFElem.body := by
  intro elems
  induction elems with
  | nil => intro _; rfl
  | cons e rest ih =>
    intro hok
    have hokE := hok e (List.mem_cons_self _ _)
    have hokR : ∀ x ∈ rest, WFElem.ok x := fun x hx => hok x (List.mem_cons_of_mem _ hx)
    have hdoc : renderDoc (e :: rest) = e.render ++ renderDoc rest := by
      unfold renderDoc
      simp
    rw [hdoc]
    by_cases htag : e.tag = tag
    · have hm : matchOpen tag (e.render ++ renderDoc rest) =
          some (e.body, renderDoc rest) := by
        rw [← htag]
        exact matchOpen_render_self e hokE _
      have hrc : e.render ++ renderDoc rest =
          '<' :: ((e.tag ++ e.ws1 ++ e.body ++ e.ws2 ++ '/' :: '>' :: []) ++
            renderDoc rest) := by
        unfold WFElem.render
        simp
      have hm2 : matchOpen tag
          ('<' :: ((e.tag ++ e.ws1 ++ e.body ++ e.ws2 ++ '/' :: '>' :: []) ++
            renderDoc rest)) = some (e.body, renderDoc rest) := by
        rw [← hrc]
        exact hm
      rw [hrc, findAll_cons, hm2]
      show e.body :: findAll tag (renderDoc rest) =
        List.map WFElem.body (List.filter (fun e => decide (e.tag = tag)) (e :: rest))
      rw [ih hokR]
      rw [List.filter_cons, if_pos (by simp [htag])]
      rfl
    · have hskip := findAll_append_none tag e.render (renderDoc rest)
        (matchOpen_inside_render_none e hokE tag hword htag (renderDoc rest))
      rw [hskip, ih hokR]
      rw [List.filter_cons, if_neg (by simp [htag])]

/-- C6: on every document consisting of well-formed self-closing elements, the
Extractor returns one entry per element carrying the requested tag (its length
is the number of such tags); and on the empty document it returns the empty
sequence for every tag name. -/
theorem claim_C6 (tag : List Char) (hword : ∀ c ∈ tag, isWord c = true)
    (elems : List WFElem) (hok : ∀ e ∈ elems, e.ok) :
    (extract_elements (renderDoc elems) tag).length =
      (elems.filter (fun e => decide (e.tag = tag))).length ∧
    ∀ anyTag : List Char, extract_elements [] anyTag = [] := by
  constructor
  · unfold extract_elements
    rw [findAll_renderDoc tag hword elems hok]
    simp
  · intro anyTag
    rfl

def wfTradeElem : WFElem := ⟨"Trade".toList, [' '], "a=\"1\"".toList, []⟩

def wfOtherElem : WFElem := ⟨"OpenPosition".toList, [' '], [], [' ']⟩

/-- Witness for C6 on a two-element document with one `Trade` element. -/
theorem claim_C6_witness :
    (∀ c ∈ tradeTag, isWord c = true) ∧
    (∀ e ∈ [wfTradeElem, wfOtherElem], e.ok) ∧
    (extract_elements (renderDoc [wfTradeElem, wfOtherElem]) tradeTag).length =
      ([wfTradeElem, wfOtherElem].filter (fun e => decide (e.tag = tradeTag))).length ∧
    extract_elements [] tradeTag = [] :=
  ⟨by decide, by decide,
    (claim_C6 tradeTag (by decide) [wfTradeElem, wfOtherElem] (by decide)).1,
    (claim_C6 tradeTag (by decide) [wfTradeElem, wfOtherElem] (by decide)).2 tradeTag⟩

/-- C7 as stated is false: `<Trade/>` is a well-formed self-closing occurrence
of `Trade` with no attributes, but the pattern requires whitespace after the
tag name, so the Extractor returns nothing for it. -/
theorem claim_C7_counterexample :
    extract_elements ("<Trade/>".toList) tradeTag = [] := by
  decide

/-- C7 (amended): every self-closing occurrence of the requested tag written
with at least one whitespace character after the tag name and carrying no
attributes is included in the output as an empty attribute mapping. -/
theorem claim_C7 (tag : List Char) (hword : ∀ c ∈ tag, isWord c = true)
    (elems : List WFElem) (hok : ∀ e ∈ elems, e.ok)
    (hnoattr : ∀ e ∈ elems, e.tag = tag → e.body = []) :
    extract_elements (renderDoc elems) tag =
      (elems.filter (fun e => decide (e.tag = tag))).map
        (fun _ => ([] : List (List Char × List Char))) := by
  unfold extract_elements
  rw [findAll_renderDoc tag hword elems hok, List.map_map]
  apply List.map_congr_left
  intro e he
  have hmf := List.mem_filter.mp he
  have htag := of_decide_eq_true hmf.2
  simp only [Function.comp_apply]
  rw [hnoattr e hmf.1 htag]
  rfl

def wfTradeEmpty : WFElem := ⟨"Trade".toList, [' '], [], []⟩

/-- Witness for C7 (amended) on the document `<Trade />`. -/
theorem claim_C7_witness :
    (∀ e ∈ [wfTradeEmpty], e.ok) ∧
    (∀ e ∈ [wfTradeEmpty], e.tag = tradeTag → e.body = []) ∧
    extract_elements (renderDoc [wfTradeEmpty]) tradeTag =
      [([] : List (List Char × List Char))] := by
  refine ⟨by decide, by decide, ?_⟩
  rw [claim_C7 tradeTag (by decide) [wfTradeEmpty] (by decide) (by decide)]
  rfl

/-! ### Invariants of the collected sample set

Python keeps `sample_values` in an unordered `set`, so the order (and hence
which 3 of up to 5 collected values `list(...)[:3]` reports) is not defined by
the program text; the set's *contents* are deterministic, and the following
bounds hold for what is reported. -/

/-- Content-level invariant of a sample collection. -/
def sampleInv (s : RawStat) : Prop :=
  s.sample_values.length ≤ 5 ∧ s.sample_values.Nodup ∧
    ∀ v ∈ s.sample_values, v.length ≤ 50

theorem updStat_sampleInv (v : List Char) (s : RawStat) (h : sampleInv s) :
    sampleInv (updStat v s) := by
  obtain ⟨h1, h2, h3⟩ := h
  unfold sampleInv
  simp only [updStat]
  split
  · split
    · split
      · exact ⟨h1, h2, h3⟩
      · rename_i hlen hmem
        refine ⟨?_, ?_, ?_⟩
        · simp only [List.length_append, List.length_singleton]
          omega
        · simp only [List.nodup_append, List.nodup_singleton]
          exact ⟨h2, by simp, by simpa using hmem⟩
        · intro x hx
          rcases List.mem_append.mp hx with hx | hx
          · exact h3 x hx
          · simp only [List.mem_singleton] at hx
            subst hx
            simpa using List.length_take_le 50 v
    · exact ⟨h1, h2, h3⟩
  · exact ⟨h1, h2, h3⟩

theorem projFold_sampleInv (f : List Char) :
    ∀ (elements : List (List (List Char × List Char))) (os : Option RawStat),
      (∀ s, os = some s → sampleInv s) →
      ∀ s, elements.foldl (projStep f) os = some s → sampleInv s := by
  intro elements
  induction elements with
  | nil => intro os h s hs; exact h s hs
  | cons e rest ih =>
    intro os h s hs
    have h1 : (e :: rest).foldl (projStep f) os = rest.foldl (projStep f) (projStep f os e) :=
      rfl
    rw [h1] at hs
    refine ih (projStep f os e) ?_ s hs
    intro s2 hs2
    unfold projStep at hs2
    cases hl : lookupAttr f e with
    | none =>
      rw [hl] at hs2
      exact h s2 hs2
    | some v =>
      rw [hl] at hs2
      cases hs2
      apply updStat_sampleInv
      cases hos : os with
      | none => exact ⟨by simp [defaultStat], by simp [defaultStat], by simp [defaultStat]⟩
      | some s3 => simpa using h s3 hos

/-- The reported `samples` of every field: at most 3 values, pairwise distinct,
each at most 50 characters, drawn from the at most 5 collected values. -/
theorem analyze_samples_bounds (elements : List (List (List Char × List Char)))
    (hnd : ∀ e ∈ elements, (e.map Prod.fst).Nodup) :
    ∀ p ∈ analyze_fields elements,
      p.2.samples.length ≤ 3 ∧ p.2.samples.Nodup ∧ ∀ v ∈ p.2.samples, v.length ≤ 50 := by
  intro p hp
  unfold analyze_fields at hp
  split at hp
  · cases hp
  · obtain ⟨q, hq, hpq⟩ := List.mem_map.mp hp
    have hlook : lookupStat q.1 (fieldStats elements) = some q.2 :=
      lookupStat_of_mem (fieldStats_keys_nodup elements) hq
    rw [lookupStat_fieldStats q.1 elements hnd] at hlook
    have hinv : sampleInv q.2 :=
      projFold_sampleInv q.1 elements none (fun s hs => by cases hs) q.2 hlook
    obtain ⟨h1, h2, h3⟩ := hinv
    subst hpq
    refine ⟨?_, ?_, ?_⟩
    · show (q.2.sample_values.take 3).length ≤ 3
      simpa using List.length_take_le 3 q.2.sample_values
    · show (q.2.sample_values.take 3).Nodup
      exact h2.sublist (List.take_sublist 3 _)
    · intro v hv
      exact h3 v (List.mem_of_mem_take hv)

end FieldPresence
